import Mathlib

set_option maxHeartbeats 1000000

namespace HDL

/-- Character constant for the backtick directive marker. -/
def tickC : Char := Char.ofNat 96

/-- Character constant for the double quote. -/
def quoteC : Char := Char.ofNat 34

/-- Character constant for the backslash. -/
def bslashC : Char := Char.ofNat 92

/-- Matches the regex class `[a-zA-Z_]` used for the first identifier character. -/
def isIdentStart (c : Char) : Bool := c.isAlpha || c == '_'

/-- Matches the regex class `[a-zA-Z0-9_$]` used for identifier tail characters. -/
def isIdentChar (c : Char) : Bool := c.isAlphanum || c == '_' || c == '$'

/-- Matches Python's `\s` class on ASCII text. -/
def isPySpace (c : Char) : Bool :=
  c == ' ' || c == '\t' || c == '\n' || c == '\r' || c == Char.ofNat 11 || c == Char.ofNat 12

inductive Marker where
  | tick | quote | lineComment | blockComment
deriving DecidableEq, Repr

inductive Diag where
  | lineComment | blockComment | strUnterminated | cantOpen (f : List Char)
deriving DecidableEq, Repr

/-- One entry of `self.conditionals`: a dict with keys `equal` and `exclude`. -/
structure Frame where
  equal : Bool
  exclude : Bool
deriving DecidableEq, Repr

/-- The instance state mutated across one run and all recursive includes:
`self.defines`, `self.conditionals`, `self.head`, plus the printed diagnostics.
Stacks are represented with the top as the list head (Python appends at the
end and indexes `[-1]`). -/
structure Shared where
  defines : List (List Char)
  conditionals : List Frame
  head : List (List Char)
  diags : List Diag
deriving DecidableEq, Repr

/-- Outcome of opening and reading a file: `openFail` models `open` raising
`OSError`, `readFail` models `file.read()` raising `OSError` after a
successful open, `ok` returns the content. -/
inductive ReadResult where
  | openFail | readFail | ok (content : List Char)
deriving DecidableEq

/-- The file system and `os.path` operations the preprocessor calls.
`join d f` models `os.path.normpath(os.path.join(d, f))` and `splitDir`
models `os.path.split(f)[0]`. -/
structure FS where
  isfile : List Char → Bool
  read : List Char → ReadResult
  join : List Char → List Char → List Char
  splitDir : List Char → List Char

/-- Result of one `preproc` call: normal return of the regions, or a Python
exception (`IndexError`) escaping the call; either way the shared state is
carried along. -/
inductive LoopResult where
  | ok (sh : Shared) (regions : List (Nat × Nat))
  | err (sh : Shared)
deriving DecidableEq, Repr

/-- Result of one iteration of the scanning `while` loop. -/
inductive IterOut where
  | cont (pos : Nat) (exclude : Bool) (excludePosStart : Nat)
      (regions : List (Nat × Nat)) (sh : Shared)
  | err (sh : Shared)
deriving DecidableEq, Repr

/-- Result of executing one `include` directive. -/
inductive IncOut where
  | proceed (sh : Shared)
  | errOut (sh : Shared)
  | fuelOut
deriving DecidableEq, Repr

/-- Scanner regex `(`|"|\/\/|\/\*)`: nearest marker at index `i` or later. -/
def scanMarker : List Char → Nat → Option (Nat × Marker)
  | [], _ => none
  | c :: rest, i =>
    if c = tickC then some (i, Marker.tick)
    else if c = quoteC then some (i, Marker.quote)
    else if c = '/' then
      if rest.head? = some '/' then some (i, Marker.lineComment)
      else if rest.head? = some '*' then some (i, Marker.blockComment)
      else scanMarker rest (i + 1)
    else scanMarker rest (i + 1)

def findMarker (cs : List Char) (pos : Nat) : Option (Nat × Marker) :=
  scanMarker (cs.drop pos) pos

/-- Search for `(\n)` from index `i`; returns `match.end(1)`. -/
def searchNl : List Char → Nat → Option Nat
  | [], _ => none
  | c :: rest, i => if c = '\n' then some (i + 1) else searchNl rest (i + 1)

/-- Search for `(\*\/)` from index `i`; returns `match.end(1)`. -/
def searchBC : List Char → Nat → Option Nat
  | [], _ => none
  | c :: rest, i =>
    if c = '*' ∧ rest.head? = some '/' then some (i + 2) else searchBC rest (i + 1)

/-- Search for `(?<!\\)(")` from index `i`; `prev` is the character at `i - 1`.
Returns `match.end(1)`. -/
def searchStrClose : Char → List Char → Nat → Option Nat
  | _, [], _ => none
  | prev, c :: rest, i =>
    if c = quoteC ∧ prev ≠ bslashC then some (i + 1) else searchStrClose c rest (i + 1)

/-- Anchored literal match: consumes `lit` starting at index `i`, returning the
index one past it. -/
def matchLit : List Char → List Char → Nat → Option Nat
  | [], _, i => some i
  | l :: ls, cs, i => if cs[i]? = some l then matchLit ls cs (i + 1) else none

/-- Anchored `([a-zA-Z_][a-zA-Z0-9_$]*)` at index `j`: the greedy identifier and
its end index. -/
def parseIdent (cs : List Char) (j : Nat) : Option (List Char × Nat) :=
  match cs.drop j with
  | [] => none
  | c :: rest =>
    if isIdentStart c then
      some (c :: rest.takeWhile isIdentChar, j + 1 + (rest.takeWhile isIdentChar).length)
    else none

/-- Anchored `\s+` at index `j`: the index one past the greedy whitespace run. -/
def parseWS1 (cs : List Char) (j : Nat) : Option Nat :=
  if ((cs.drop j).takeWhile isPySpace).length = 0 then none
  else some (j + ((cs.drop j).takeWhile isPySpace).length)

/-- Anchored `(`include) "([^"]+)"` at index `i`: the path and `match.end(2)`
(the index of the closing quote). -/
def parseInclude (cs : List Char) (i : Nat) : Option (List Char × Nat) :=
  match matchLit (tickC :: String.toList "include \"") cs i with
  | none => none
  | some j =>
    if 0 < ((cs.drop j).takeWhile (fun c => !(c == quoteC))).length ∧
        cs[j + ((cs.drop j).takeWhile (fun c => !(c == quoteC))).length]? = some quoteC then
      some ((cs.drop j).takeWhile (fun c => !(c == quoteC)),
        j + ((cs.drop j).takeWhile (fun c => !(c == quoteC))).length)
    else none

/-- Anchored `(`define) ([a-zA-Z_][a-zA-Z0-9_$]*)` at index `i`. -/
def parseDefine (cs : List Char) (i : Nat) : Option (List Char × Nat) :=
  match matchLit (tickC :: String.toList "define ") cs i with
  | none => none
  | some j => parseIdent cs j

/-- Shared shape of the `undef`, `ifdef` and `ifndef` regexes:
keyword, `\s+`, then an identifier; yields the name and `match.end(2)`. -/
def parseCond (lit : List Char) (cs : List Char) (i : Nat) : Option (List Char × Nat) :=
  match matchLit lit cs i with
  | none => none
  | some j =>
    match parseWS1 cs j with
    | none => none
    | some k => parseIdent cs k

def parseUndef (cs : List Char) (i : Nat) : Option (List Char × Nat) :=
  parseCond (tickC :: String.toList "undef") cs i

def parseIfdef (cs : List Char) (i : Nat) : Option (List Char × Nat) :=
  parseCond (tickC :: String.toList "ifdef") cs i

def parseIfndef (cs : List Char) (i : Nat) : Option (List Char × Nat) :=
  parseCond (tickC :: String.toList "ifndef") cs i

/-- Shared shape of the `resetall`, `else` and `endif` regexes: keyword followed
by one character outside `[a-zA-Z0-9_$]`; yields `match.end(1)`. -/
def parseKw (lit : List Char) (cs : List Char) (i : Nat) : Option Nat :=
  match matchLit lit cs i with
  | none => none
  | some j =>
    match cs[j]? with
    | none => none
    | some c => if isIdentChar c then none else some j

def parseResetall (cs : List Char) (i : Nat) : Option Nat :=
  parseKw (tickC :: String.toList "resetall") cs i

def parseElse (cs : List Char) (i : Nat) : Option Nat :=
  parseKw (tickC :: String.toList "else") cs i

def parseEndif (cs : List Char) (i : Nat) : Option Nat :=
  parseKw (tickC :: String.toList "endif") cs i

/-- Which directive grammar matched at a backtick, in the fixed priority order
of the source: include, define, undef, resetall, ifdef, else, endif, ifndef. -/
inductive Directive where
  | dirInclude (path : List Char) (pend : Nat)
  | dirDefine (name : List Char) (e2 : Nat)
  | dirUndef (name : List Char) (e2 : Nat)
  | dirResetall (j : Nat)
  | dirIfdef (name : List Char) (e2 : Nat)
  | dirElse (j : Nat)
  | dirEndif (j : Nat)
  | dirIfndef (name : List Char) (e2 : Nat)
  | dirNone
deriving DecidableEq, Repr

def dispatchDirective (cs : List Char) (i : Nat) : Directive :=
  match parseInclude cs i with
  | some (p, j) => .dirInclude p j
  | none =>
  match parseDefine cs i with
  | some (n, j) => .dirDefine n j
  | none =>
  match parseUndef cs i with
  | some (n, j) => .dirUndef n j
  | none =>
  match parseResetall cs i with
  | some j => .dirResetall j
  | none =>
  match parseIfdef cs i with
  | some (n, j) => .dirIfdef n j
  | none =>
  match parseElse cs i with
  | some j => .dirElse j
  | none =>
  match parseEndif cs i with
  | some j => .dirEndif j
  | none =>
  match parseIfndef cs i with
  | some (n, j) => .dirIfndef n j
  | none => .dirNone

/-- Scan of the configured directories for an include target: first entry whose
joined path is a file. -/
def resolveIncdirs (fs : FS) (path : List Char) : List (List Char) → Option (List Char)
  | [] => none
  | d :: rest =>
    if fs.isfile (fs.join d path) then some (fs.join d path) else resolveIncdirs fs path rest

/-- Resolution order of the source: the directory on top of `self.head` first,
then the configured `incdirs` in order.  `self.head` is never empty in a run
(the caller seeds it with the base directory), so `headD` is only a totality
device. -/
def resolveInclude (fs : FS) (hd : List (List Char)) (incdirs : List (List Char))
    (path : List Char) : Option (List Char) :=
  if fs.isfile (fs.join (hd.headD []) path) then some (fs.join (hd.headD []) path)
  else resolveIncdirs fs path incdirs

/-- Execution of one matched `include` directive.  On a successful open the
directory is pushed before `file.read()`; a read failure is caught by the
`except OSError` with the pushed directory left on the stack, exactly as in
the source, where the `del self.head[-1]` is only reached on the success
path. -/
def includeRun (recur : List Char → Shared → Option LoopResult) (fs : FS)
    (incdirs : List (List Char)) (path : List Char) (sh : Shared) : IncOut :=
  match resolveInclude fs sh.head incdirs path with
  | none => .proceed sh
  | some f =>
    match fs.read f with
    | .openFail => .proceed { sh with diags := sh.diags ++ [Diag.cantOpen f] }
    | .readFail =>
      .proceed ⟨sh.defines, sh.conditionals, fs.splitDir f :: sh.head,
        sh.diags ++ [Diag.cantOpen f]⟩
    | .ok sub =>
      match recur sub { sh with head := fs.splitDir f :: sh.head } with
      | none => .fuelOut
      | some (.err sh₂) => .errOut sh₂
      | some (.ok sh₂ _) => .proceed { sh₂ with head := sh₂.head.tail }

/-- One iteration of the scanning `while` loop of `preproc`, with the recursive
include pass supplied as `recur`.  An `IterOut.err` is a Python `IndexError`
on `self.conditionals`. -/
def iterOnce (recur : List Char → Shared → Option LoopResult) (fs : FS)
    (incdirs : List (List Char)) (cs : List Char) (pos : Nat) (exclude : Bool)
    (excludePosStart : Nat) (regions : List (Nat × Nat)) (sh : Shared) : Option IterOut :=
  match findMarker cs pos with
  | none => some (.cont cs.length exclude excludePosStart regions sh)
  | some (i, Marker.lineComment) =>
    match searchNl (cs.drop (i + 2)) (i + 2) with
    | some p => some (.cont p exclude excludePosStart regions sh)
    | none =>
      some (.cont cs.length exclude excludePosStart regions
        { sh with diags := sh.diags ++ [Diag.lineComment] })
  | some (i, Marker.blockComment) =>
    match searchBC (cs.drop (i + 2)) (i + 2) with
    | some p => some (.cont p exclude excludePosStart regions sh)
    | none =>
      some (.cont cs.length exclude excludePosStart regions
        { sh with diags := sh.diags ++ [Diag.blockComment] })
  | some (i, Marker.quote) =>
    match searchStrClose quoteC (cs.drop (i + 1)) (i + 1) with
    | some p => some (.cont p exclude excludePosStart regions sh)
    | none =>
      some (.cont cs.length exclude excludePosStart regions
        { sh with diags := sh.diags ++ [Diag.strUnterminated] })
  | some (i, Marker.tick) =>
    match dispatchDirective cs i with
    | .dirInclude path pend =>
      match includeRun recur fs incdirs path sh with
      | .proceed sh₂ => some (.cont (pend + 1) exclude excludePosStart regions sh₂)
      | .errOut sh₂ => some (.err sh₂)
      | .fuelOut => none
    | .dirDefine name e2 =>
      if name ∈ sh.defines then some (.cont pos exclude excludePosStart regions sh)
      else some (.cont e2 exclude excludePosStart regions
        { sh with defines := sh.defines ++ [name] })
    | .dirUndef name e2 =>
      if name ∈ sh.defines then
        some (.cont e2 exclude excludePosStart regions
          { sh with defines := sh.defines.erase name })
      else some (.cont pos exclude excludePosStart regions sh)
    | .dirResetall j =>
      some (.cont j exclude excludePosStart regions { sh with defines := [] })
    | .dirIfdef name e2 =>
      if !exclude && decide (name ∉ sh.defines) then
        some (.cont e2 true i regions
          { sh with conditionals :=
              Frame.mk (decide (name ∈ sh.defines)) true :: sh.conditionals })
      else
        some (.cont e2 exclude excludePosStart regions
          { sh with conditionals :=
              Frame.mk (decide (name ∈ sh.defines)) false :: sh.conditionals })
    | .dirElse j =>
      if exclude then
        match sh.conditionals with
        | [] => some (.err sh)
        | top :: rest =>
          if top.exclude then
            some (.cont j false excludePosStart (regions ++ [(excludePosStart, i)])
              { sh with conditionals := Frame.mk (!top.equal) false :: rest })
          else some (.cont j exclude excludePosStart regions sh)
      else
        match sh.conditionals with
        | [] => some (.err sh)
        | _ :: rest =>
          some (.cont j true j regions { sh with conditionals := Frame.mk true true :: rest })
    | .dirEndif j =>
      if exclude then
        match sh.conditionals with
        | [] => some (.err sh)
        | top :: rest =>
          if top.exclude then
            some (.cont j false excludePosStart (regions ++ [(excludePosStart, j)])
              { sh with conditionals := rest })
          else some (.cont j exclude excludePosStart regions { sh with conditionals := rest })
      else
        match sh.conditionals with
        | [] => some (.err sh)
        | _ :: rest =>
          some (.cont j exclude excludePosStart regions { sh with conditionals := rest })
    | .dirIfndef name e2 =>
      if !exclude && decide (name ∈ sh.defines) then
        some (.cont e2 true i regions
          { sh with conditionals :=
              Frame.mk (decide (name ∉ sh.defines)) true :: sh.conditionals })
      else
        some (.cont e2 exclude excludePosStart regions
          { sh with conditionals :=
              Frame.mk (decide (name ∉ sh.defines)) false :: sh.conditionals })
    | .dirNone => some (.cont (i + 1) exclude excludePosStart regions sh)

/-- The scanning `while` loop of `preproc`, fueled: `none` means the fuel ran
out, i.e. the Python loop (or its include recursion) has not finished after
`fuel` combined iterations. -/
def loop : Nat → FS → List (List Char) → List Char → Nat → Bool → Nat →
    List (Nat × Nat) → Shared → Option LoopResult
  | 0, _, _, _, _, _, _, _, _ => none
  | f + 1, fs, incdirs, cs, pos, exclude, excludePosStart, regions, sh =>
    if pos < cs.length then
      match iterOnce (fun sub sh₁ => loop f fs incdirs sub 0 false 0 [] sh₁) fs incdirs cs pos
          exclude excludePosStart regions sh with
      | none => none
      | some (.err sh₁) => some (.err sh₁)
      | some (.cont p e x r s) => loop f fs incdirs cs p e x r s
    else some (.ok sh regions)

/-- `HDL_Preprocessor.preproc(content)`: locals initialized as in the source. -/
def preproc (fuel : Nat) (fs : FS) (incdirs : List (List Char)) (cs : List Char)
    (sh : Shared) : Option LoopResult :=
  loop fuel fs incdirs cs 0 false 0 [] sh

/-- The instance state as `track_modifications` seeds it before calling
`preproc`: empty define table and conditional stack, `self.head = [head]`. -/
def initShared (baseDir : List Char) : Shared := ⟨[], [], [baseDir], []⟩

/-- A file system with no files; `join` concatenates, `splitDir` is trivial. -/
def fsEmpty : FS :=
  ⟨fun _ => false, fun _ => ReadResult.openFail, fun d f => d ++ f, fun _ => []⟩

/-- A file system with exactly one readable file `foo` defining macro `X`. -/
def fsOne : FS :=
  ⟨fun q => decide (q = "foo".toList),
   fun q => if q = "foo".toList then ReadResult.ok ("`define X\n".toList)
            else ReadResult.openFail,
   fun d f => d ++ f, fun _ => "d".toList⟩

/-- A file system on which every path is a file whose read fails after a
successful open. -/
def fsRF : FS :=
  ⟨fun _ => true, fun _ => ReadResult.readFail, fun d f => d ++ f, fun _ => "d".toList⟩

/-- Input whose `undef` names an undefined macro. -/
def csUndefA : List Char := "`undef A".toList

/-- Input defining the same macro twice. -/
def csDefTwice : List Char := "`define A `define A".toList

/-- Input with an `endif` on an empty conditional stack. -/
def csEndifOnly : List Char := "`endif\n".toList

/-- Input with an `else` on an empty conditional stack. -/
def csElseOnly : List Char := "`else\n".toList

/-- Input with an include whose target does not exist. -/
def csIncMissing : List Char := "`include \"foo\"\nx".toList

/-- Input including `foo` and then testing the macro it defines. -/
def csIncMain : List Char := "`include \"foo\"\n`ifdef X\nbody\n`endif\n".toList

/-- Input with a conditional nested inside an excluded outer conditional. -/
def csNested : List Char := "`ifdef A\n`ifdef B\nx\n`else\ny\n`endif\nz\n`endif\n".toList

/-- Input with directive keywords inside a line comment and a string. -/
def csComment : List Char := "// `define A\n\"`define B\"\n`ifdef A\nx\n`endif\n".toList

/-- Input whose second quote is preceded by exactly two backslashes. -/
def csEvenBS : List Char := "\"\\\\\" `define A\n".toList

/-- Input with an include of a file that exists but cannot be read. -/
def csIncF : List Char := "`include \"f\"\nx".toList

/-- Character immediately before offset `k` of the searched suffix `l`, where
`prev` is the character just before `l`. -/
def prevChar (prev : Char) (l : List Char) (k : Nat) : Option Char :=
  if k = 0 then some prev else l[k - 1]?

theorem takeWhile_len_le (p : Char → Bool) : ∀ l : List Char, (l.takeWhile p).length ≤ l.length
  | [] => by simp
  | c :: rest => by
    simp only [List.takeWhile]
    split
    · simpa using takeWhile_len_le p rest
    · simp

theorem getElem?_lt {α : Type} (l : List α) (n : Nat) (a : α) (h : l[n]? = some a) :
    n < l.length := by
  by_contra hc
  rw [List.getElem?_eq_none (by omega)] at h
  cases h

theorem scanMarker_bounds : ∀ (l : List Char) (i j : Nat) (m : Marker),
    scanMarker l i = some (j, m) → i ≤ j ∧ j < i + l.length
  | [], i, j, m => by intro h; simp [scanMarker] at h
  | c :: rest, i, j, m => by
    intro h
    simp only [scanMarker] at h
    split_ifs at h with h1 h2 h3 h4 h5 <;>
      first
        | (cases h; simp only [List.length_cons]; omega)
        | (have hsb := scanMarker_bounds rest (i + 1) j m h;
           simp only [List.length_cons]; omega)

theorem findMarker_bounds (cs : List Char) (pos i : Nat) (m : Marker)
    (h : findMarker cs pos = some (i, m)) : pos ≤ i ∧ i < cs.length := by
  unfold findMarker at h
  have hb := scanMarker_bounds (cs.drop pos) pos i m h
  have hne : 0 < (cs.drop pos).length := by
    rcases hd : cs.drop pos with _ | ⟨c, rest⟩
    · rw [hd] at h; simp [scanMarker] at h
    · simp [hd]
  have hl : (cs.drop pos).length = cs.length - pos := List.length_drop pos cs
  omega

theorem searchNl_bounds : ∀ (l : List Char) (i p : Nat),
    searchNl l i = some p → i < p ∧ p ≤ i + l.length ∧ 0 < l.length
  | [], i, p => by intro h; simp [searchNl] at h
  | c :: rest, i, p => by
    intro h
    simp only [searchNl] at h
    split_ifs at h with h1
    · cases h; simp only [List.length_cons]; omega
    · have := searchNl_bounds rest (i + 1) p h; simp only [List.length_cons]; omega

theorem searchBC_bounds : ∀ (l : List Char) (i p : Nat),
    searchBC l i = some p → i < p ∧ p ≤ i + l.length ∧ 0 < l.length
  | [], i, p => by intro h; simp [searchBC] at h
  | c :: rest, i, p => by
    intro h
    simp only [searchBC] at h
    split_ifs at h with h1
    · cases h
      have : 0 < rest.length := by
        rcases hr : rest with _ | ⟨d, rest'⟩
        · rw [hr] at h1; simp at h1
        · simp [hr]
      simp only [List.length_cons]; omega
    · have := searchBC_bounds rest (i + 1) p h; simp only [List.length_cons]; omega

theorem searchStrClose_bounds : ∀ (prev : Char) (l : List Char) (i p : Nat),
    searchStrClose prev l i = some p → i < p ∧ p ≤ i + l.length ∧ 0 < l.length
  | _, [], i, p => by intro h; simp [searchStrClose] at h
  | prev, c :: rest, i, p => by
    intro h
    simp only [searchStrClose] at h
    split_ifs at h with h1
    · cases h; simp only [List.length_cons]; omega
    · have := searchStrClose_bounds c rest (i + 1) p h; simp only [List.length_cons]; omega

theorem matchLit_some : ∀ (lit cs : List Char) (i j : Nat), matchLit lit cs i = some j →
    j = i + lit.length ∧ (lit = [] ∨ j ≤ cs.length)
  | [], cs, i, j => by intro h; simp only [matchLit] at h; cases h; simp
  | l :: ls, cs, i, j => by
    intro h
    simp only [matchLit] at h
    split_ifs at h with h1
    · have ih := matchLit_some ls cs (i + 1) j h
      have hi : i < cs.length := getElem?_lt cs i l h1
      refine ⟨by simp only [List.length_cons]; omega, Or.inr ?_⟩
      rcases ih.2 with he | hle
      · subst he; simp at ih; omega
      · exact hle

theorem parseIdent_bounds (cs : List Char) (j : Nat) (n : List Char) (e2 : Nat)
    (h : parseIdent cs j = some (n, e2)) : j < e2 ∧ e2 ≤ cs.length := by
  unfold parseIdent at h
  split at h
  · cases h
  · rename_i c rest heq
    split_ifs at h with h1
    cases h
    have hlen : (cs.drop j).length = cs.length - j := List.length_drop j cs
    rw [heq] at hlen
    have htw := takeWhile_len_le isIdentChar rest
    simp at hlen
    omega

theorem parseWS1_bounds (cs : List Char) (j k : Nat) (h : parseWS1 cs j = some k) :
    j < k ∧ k ≤ cs.length := by
  unfold parseWS1 at h
  split_ifs at h with h1
  cases h
  have htw := takeWhile_len_le isPySpace (cs.drop j)
  have hlen : (cs.drop j).length = cs.length - j := List.length_drop j cs
  omega

theorem parseInclude_bounds (cs : List Char) (i : Nat) (p : List Char) (pend : Nat)
    (h : parseInclude cs i = some (p, pend)) : i < pend ∧ pend < cs.length := by
  unfold parseInclude at h
  split at h
  · cases h
  · rename_i j heq
    have hm := matchLit_some _ cs i j heq
    split_ifs at h with h1
    cases h
    have hq := getElem?_lt cs _ _ h1.2
    have h0 := h1.1
    rcases hm.2 with he | hle
    · cases he
    · simp at hm; omega

theorem parseCond_bounds (lit cs : List Char) (i : Nat) (n : List Char) (e2 : Nat)
    (hne : lit ≠ []) (h : parseCond lit cs i = some (n, e2)) : i < e2 ∧ e2 ≤ cs.length := by
  unfold parseCond at h
  split at h
  · cases h
  · rename_i j heq
    have hm := matchLit_some _ cs i j heq
    split at h
    · cases h
    · rename_i k hws
      have hw := parseWS1_bounds cs j k hws
      have hid := parseIdent_bounds cs k n e2 h
      rcases hm.2 with he | hle
      · exact absurd he hne
      · omega

theorem parseDefine_bounds (cs : List Char) (i : Nat) (n : List Char) (e2 : Nat)
    (h : parseDefine cs i = some (n, e2)) : i < e2 ∧ e2 ≤ cs.length := by
  unfold parseDefine at h
  split at h
  · cases h
  · rename_i j heq
    have hm := matchLit_some _ cs i j heq
    have hid := parseIdent_bounds cs j n e2 h
    rcases hm.2 with he | hle
    · cases he
    · simp at hm; omega

theorem parseKw_bounds (lit cs : List Char) (i j : Nat)
    (hne : lit ≠ []) (h : parseKw lit cs i = some j) : i < j ∧ j < cs.length := by
  unfold parseKw at h
  split at h
  · cases h
  · rename_i j' heq
    have hm := matchLit_some _ cs i j' heq
    split at h
    · cases h
    · rename_i c hc
      split_ifs at h with h1
      cases h
      have := getElem?_lt cs _ c hc
      rcases hm.2 with he | hle
      · exact absurd he hne
      · have : 0 < lit.length := List.length_pos.mpr hne
        omega

theorem dd_include_eq {cs : List Char} {i : Nat} {p : List Char} {pend : Nat}
    (h : dispatchDirective cs i = Directive.dirInclude p pend) :
    parseInclude cs i = some (p, pend) := by
  unfold dispatchDirective at h
  repeat' split at h
  all_goals simp_all

theorem dd_define_eq {cs : List Char} {i : Nat} {n : List Char} {e2 : Nat}
    (h : dispatchDirective cs i = Directive.dirDefine n e2) :
    parseDefine cs i = some (n, e2) := by
  unfold dispatchDirective at h
  repeat' split at h
  all_goals simp_all

theorem dd_undef_eq {cs : List Char} {i : Nat} {n : List Char} {e2 : Nat}
    (h : dispatchDirective cs i = Directive.dirUndef n e2) :
    parseUndef cs i = some (n, e2) := by
  unfold dispatchDirective at h
  repeat' split at h
  all_goals simp_all

theorem dd_resetall_eq {cs : List Char} {i : Nat} {j : Nat}
    (h : dispatchDirective cs i = Directive.dirResetall j) :
    parseResetall cs i = some j := by
  unfold dispatchDirective at h
  repeat' split at h
  all_goals simp_all

theorem dd_ifdef_eq {cs : List Char} {i : Nat} {n : List Char} {e2 : Nat}
    (h : dispatchDirective cs i = Directive.dirIfdef n e2) :
    parseIfdef cs i = some (n, e2) := by
  unfold dispatchDirective at h
  repeat' split at h
  all_goals simp_all

theorem dd_else_eq {cs : List Char} {i : Nat} {j : Nat}
    (h : dispatchDirective cs i = Directive.dirElse j) :
    parseElse cs i = some j := by
  unfold dispatchDirective at h
  repeat' split at h
  all_goals simp_all

theorem dd_endif_eq {cs : List Char} {i : Nat} {j : Nat}
    (h : dispatchDirective cs i = Directive.dirEndif j) :
    parseEndif cs i = some j := by
  unfold dispatchDirective at h
  repeat' split at h
  all_goals simp_all

theorem dd_ifndef_eq {cs : List Char} {i : Nat} {n : List Char} {e2 : Nat}
    (h : dispatchDirective cs i = Directive.dirIfndef n e2) :
    parseIfndef cs i = some (n, e2) := by
  unfold dispatchDirective at h
  repeat' split at h
  all_goals simp_all

theorem dd_include_bounds {cs : List Char} {i : Nat} {p : List Char} {pend : Nat}
    (h : dispatchDirective cs i = Directive.dirInclude p pend) :
    i < pend ∧ pend < cs.length :=
  parseInclude_bounds cs i p pend (dd_include_eq h)

theorem dd_define_bounds {cs : List Char} {i : Nat} {n : List Char} {e2 : Nat}
    (h : dispatchDirective cs i = Directive.dirDefine n e2) :
    i < e2 ∧ e2 ≤ cs.length :=
  parseDefine_bounds cs i n e2 (dd_define_eq h)

theorem dd_undef_bounds {cs : List Char} {i : Nat} {n : List Char} {e2 : Nat}
    (h : dispatchDirective cs i = Directive.dirUndef n e2) :
    i < e2 ∧ e2 ≤ cs.length :=
  parseCond_bounds _ cs i n e2 (by simp) (dd_undef_eq h)

theorem dd_resetall_bounds {cs : List Char} {i : Nat} {j : Nat}
    (h : dispatchDirective cs i = Directive.dirResetall j) :
    i < j ∧ j < cs.length :=
  parseKw_bounds _ cs i j (by simp) (dd_resetall_eq h)

theorem dd_ifdef_bounds {cs : List Char} {i : Nat} {n : List Char} {e2 : Nat}
    (h : dispatchDirective cs i = Directive.dirIfdef n e2) :
    i < e2 ∧ e2 ≤ cs.length :=
  parseCond_bounds _ cs i n e2 (by simp) (dd_ifdef_eq h)

theorem dd_else_bounds {cs : List Char} {i : Nat} {j : Nat}
    (h : dispatchDirective cs i = Directive.dirElse j) :
    i < j ∧ j < cs.length :=
  parseKw_bounds _ cs i j (by simp) (dd_else_eq h)

theorem dd_endif_bounds {cs : List Char} {i : Nat} {j : Nat}
    (h : dispatchDirective cs i = Directive.dirEndif j) :
    i < j ∧ j < cs.length :=
  parseKw_bounds _ cs i j (by simp) (dd_endif_eq h)

theorem dd_ifndef_bounds {cs : List Char} {i : Nat} {n : List Char} {e2 : Nat}
    (h : dispatchDirective cs i = Directive.dirIfndef n e2) :
    i < e2 ∧ e2 ≤ cs.length :=
  parseCond_bounds _ cs i n e2 (by simp) (dd_ifndef_eq h)

/-- Regions appear in ascending document order without overlap. -/
def regionsOrdered (regs : List (Nat × Nat)) : Prop :=
  List.Chain' (fun a b => a.2 ≤ b.1) regs

/-- Each region is a half-open interval within the first `len` offsets. -/
def regionsBounded (len : Nat) (regs : List (Nat × Nat)) : Prop :=
  ∀ p ∈ regs, p.1 ≤ p.2 ∧ p.2 ≤ len

/-- Loop invariant tying the scan position, the exclusion cursor and the
regions accumulated so far. -/
def ExclInv (cs : List Char) (pos : Nat) (e : Bool) (xs : Nat)
    (regs : List (Nat × Nat)) : Prop :=
  pos ≤ cs.length ∧ regionsOrdered regs ∧ (∀ p ∈ regs, p.1 ≤ p.2 ∧ p.2 ≤ pos) ∧
    (e = true → xs ≤ pos ∧ ∀ p ∈ regs, p.2 ≤ xs)

theorem mem_of_getLast? {α : Type} : ∀ (l : List α) (a : α), l.getLast? = some a → a ∈ l
  | [], _, h => by cases h
  | [b], a, h => by
    simp only [List.getLast?_singleton] at h
    cases h
    exact List.mem_singleton_self b
  | b :: c :: rest, a, h => by
    rw [List.getLast?_cons_cons] at h
    exact List.mem_cons_of_mem _ (mem_of_getLast? (c :: rest) a h)

theorem chainAppend (regs : List (Nat × Nat)) (a : Nat × Nat)
    (h : List.Chain' (fun x y => x.2 ≤ y.1) regs) (hall : ∀ p ∈ regs, p.2 ≤ a.1) :
    List.Chain' (fun x y => x.2 ≤ y.1) (regs ++ [a]) := by
  rw [List.chain'_append]
  refine ⟨h, List.chain'_singleton a, ?_⟩
  intro x hx y hy
  simp only [List.head?_cons, Option.mem_def, Option.some.injEq] at hy
  rw [Option.mem_def] at hx
  subst hy
  exact hall x (mem_of_getLast? regs x hx)

theorem ExclInv.advance {cs : List Char} {pos pos₂ xs : Nat} {e : Bool}
    {regs : List (Nat × Nat)} (h : ExclInv cs pos e xs regs)
    (h1 : pos ≤ pos₂) (h2 : pos₂ ≤ cs.length) : ExclInv cs pos₂ e xs regs := by
  obtain ⟨_, hord, hbnd, hexc⟩ := h
  exact ⟨h2, hord, fun p hp => ⟨(hbnd p hp).1, le_trans (hbnd p hp).2 h1⟩,
    fun he => ⟨le_trans (hexc he).1 h1, (hexc he).2⟩⟩

theorem ExclInv.startExcl {cs : List Char} {pos pos₂ xs xs₂ : Nat} {e : Bool}
    {regs : List (Nat × Nat)} (h : ExclInv cs pos e xs regs)
    (h1 : pos ≤ xs₂) (h2 : xs₂ ≤ pos₂) (h3 : pos₂ ≤ cs.length) :
    ExclInv cs pos₂ true xs₂ regs := by
  obtain ⟨_, hord, hbnd, _⟩ := h
  refine ⟨h3, hord, fun p hp => ⟨(hbnd p hp).1, by have := (hbnd p hp).2; omega⟩, ?_⟩
  intro _
  exact ⟨h2, fun p hp => by have := (hbnd p hp).2; omega⟩

theorem ExclInv.emit {cs : List Char} {pos pos₂ xs xs₂ endv : Nat}
    {regs : List (Nat × Nat)} (h : ExclInv cs pos true xs regs)
    (h1 : pos ≤ endv) (h2 : endv ≤ pos₂) (h3 : pos₂ ≤ cs.length) :
    ExclInv cs pos₂ false xs₂ (regs ++ [(xs, endv)]) := by
  obtain ⟨hp, hord, hbnd, hexc⟩ := h
  obtain ⟨hxs, hall⟩ := hexc rfl
  refine ⟨h3, chainAppend regs (xs, endv) hord hall, ?_, by intro he; cases he⟩
  intro p hpm
  rcases List.mem_append.mp hpm with hm | hm
  · exact ⟨(hbnd p hm).1, by have := (hbnd p hm).2; omega⟩
  · simp only [List.mem_singleton] at hm
    subst hm
    exact ⟨by omega, by omega⟩

theorem iterOnce_inv (recur : List Char → Shared → Option LoopResult) (fs : FS)
    (incdirs : List (List Char)) (cs : List Char) (pos : Nat) (e : Bool) (xs : Nat)
    (regs : List (Nat × Nat)) (sh : Shared) (pos₂ : Nat) (e₂ : Bool) (xs₂ : Nat)
    (regs₂ : List (Nat × Nat)) (sh₂ : Shared)
    (h : iterOnce recur fs incdirs cs pos e xs regs sh =
      some (IterOut.cont pos₂ e₂ xs₂ regs₂ sh₂))
    (hinv : ExclInv cs pos e xs regs) : ExclInv cs pos₂ e₂ xs₂ regs₂ := by
  have hl0 : pos ≤ cs.length := hinv.1
  unfold iterOnce at h
  split at h
  · cases h
    exact hinv.advance hl0 (le_refl _)
  · rename_i i hF
    have hb := findMarker_bounds cs pos i Marker.lineComment hF
    split at h
    · rename_i p hS
      have hs := searchNl_bounds (cs.drop (i + 2)) (i + 2) p hS
      have hd : (cs.drop (i + 2)).length = cs.length - (i + 2) := List.length_drop _ _
      cases h
      exact hinv.advance (by omega) (by omega)
    · cases h
      exact hinv.advance hl0 (le_refl _)
  · rename_i i hF
    have hb := findMarker_bounds cs pos i Marker.blockComment hF
    split at h
    · rename_i p hS
      have hs := searchBC_bounds (cs.drop (i + 2)) (i + 2) p hS
      have hd : (cs.drop (i + 2)).length = cs.length - (i + 2) := List.length_drop _ _
      cases h
      exact hinv.advance (by omega) (by omega)
    · cases h
      exact hinv.advance hl0 (le_refl _)
  · rename_i i hF
    have hb := findMarker_bounds cs pos i Marker.quote hF
    split at h
    · rename_i p hS
      have hs := searchStrClose_bounds quoteC (cs.drop (i + 1)) (i + 1) p hS
      have hd : (cs.drop (i + 1)).length = cs.length - (i + 1) := List.length_drop _ _
      cases h
      exact hinv.advance (by omega) (by omega)
    · cases h
      exact hinv.advance hl0 (le_refl _)
  · rename_i i hF
    have hb := findMarker_bounds cs pos i Marker.tick hF
    split at h
    · rename_i path pend hD
      have hib := dd_include_bounds hD
      split at h
      · cases h
        exact hinv.advance (by omega) (by omega)
      · simp at h
      · cases h
    · rename_i name e2v hD
      have hdb := dd_define_bounds hD
      split_ifs at h with hm
      · cases h
        exact hinv
      · cases h
        exact hinv.advance (by omega) (by omega)
    · rename_i name e2v hD
      have hdb := dd_undef_bounds hD
      split_ifs at h with hm
      · cases h
        exact hinv.advance (by omega) (by omega)
      · cases h
        exact hinv
    · rename_i j hD
      have hdb := dd_resetall_bounds hD
      cases h
      exact hinv.advance (by omega) (by omega)
    · rename_i name e2v hD
      have hdb := dd_ifdef_bounds hD
      split_ifs at h with hc
      · cases h
        exact hinv.startExcl (by omega) (by omega) (by omega)
      · cases h
        exact hinv.advance (by omega) (by omega)
    · rename_i j hD
      have hdb := dd_else_bounds hD
      split_ifs at h with hc
      · split at h
        · simp at h
        · rename_i top rest hstk
          split_ifs at h with ht
          · cases h
            rw [hc] at hinv
            exact hinv.emit (by omega) (by omega) (by omega)
          · cases h
            exact hinv.advance (by omega) (by omega)
      · split at h
        · simp at h
        · rename_i top rest hstk
          cases h
          exact hinv.startExcl (by omega) (le_refl _) (by omega)
    · rename_i j hD
      have hdb := dd_endif_bounds hD
      split_ifs at h with hc
      · split at h
        · simp at h
        · rename_i top rest hstk
          split_ifs at h with ht
          · cases h
            rw [hc] at hinv
            exact hinv.emit (by omega) (le_refl _) (by omega)
          · cases h
            exact hinv.advance (by omega) (by omega)
      · split at h
        · simp at h
        · rename_i top rest hstk
          cases h
          exact hinv.advance (by omega) (by omega)
    · rename_i name e2v hD
      have hdb := dd_ifndef_bounds hD
      split_ifs at h with hc
      · cases h
        exact hinv.startExcl (by omega) (by omega) (by omega)
      · cases h
        exact hinv.advance (by omega) (by omega)
    · cases h
      exact hinv.advance (by omega) (by omega)

theorem ExclInv.init (cs : List Char) : ExclInv cs 0 false 0 [] := by
  unfold ExclInv regionsOrdered
  exact ⟨Nat.zero_le _, List.chain'_nil, by simp, by simp⟩

theorem loop_regsWF (fuel : Nat) : ∀ (fs : FS) (incdirs : List (List Char)) (cs : List Char)
    (pos : Nat) (e : Bool) (xs : Nat) (regs : List (Nat × Nat)) (sh sh₂ : Shared)
    (regs₂ : List (Nat × Nat)),
    loop fuel fs incdirs cs pos e xs regs sh = some (LoopResult.ok sh₂ regs₂) →
    ExclInv cs pos e xs regs →
    regionsOrdered regs₂ ∧ regionsBounded cs.length regs₂ := by
  induction fuel with
  | zero =>
    intro fs incdirs cs pos e xs regs sh sh₂ regs₂ h _
    simp [loop] at h
  | succ f ih =>
    intro fs incdirs cs pos e xs regs sh sh₂ regs₂ h hinv
    simp only [loop] at h
    split_ifs at h with hp
    · split at h
      · cases h
      · simp at h
      · rename_i p₂ e₂ x₂ r₂ s₂ hIter
        exact ih fs incdirs cs p₂ e₂ x₂ r₂ s₂ sh₂ regs₂ h
          (iterOnce_inv _ fs incdirs cs pos e xs regs sh p₂ e₂ x₂ r₂ s₂ hIter hinv)
    · cases h
      exact ⟨hinv.2.1, fun p hp' =>
        ⟨(hinv.2.2.1 p hp').1, le_trans (hinv.2.2.1 p hp').2 hinv.1⟩⟩

theorem scanMarker_none : ∀ (l : List Char),
    tickC ∉ l → quoteC ∉ l →
    List.Chain' (fun a b => ¬(a = '/' ∧ (b = '/' ∨ b = '*'))) l →
    ∀ i, scanMarker l i = none
  | [], _, _, _, _ => rfl
  | c :: rest, h1, h2, h3, i => by
    rw [List.mem_cons] at h1 h2
    push_neg at h1 h2
    rw [List.chain'_cons'] at h3
    simp only [scanMarker]
    have hct : ¬ c = tickC := fun hh => h1.1 hh.symm
    have hcq : ¬ c = quoteC := fun hh => h2.1 hh.symm
    rw [if_neg hct, if_neg hcq]
    have hrec := scanMarker_none rest h1.2 h2.2 h3.2 (i + 1)
    split_ifs with hsl hh1 hh2
    · exact absurd ⟨hsl, Or.inl rfl⟩ (h3.1 '/' (by rw [Option.mem_def]; exact hh1))
    · exact absurd ⟨hsl, Or.inr rfl⟩ (h3.1 '*' (by rw [Option.mem_def]; exact hh2))
    · exact hrec
    · exact hrec

theorem markerFree_regs (fuel : Nat) (fs : FS) (incdirs : List (List Char)) (cs : List Char)
    (sh sh₂ : Shared) (regs₂ : List (Nat × Nat))
    (h : preproc fuel fs incdirs cs sh = some (LoopResult.ok sh₂ regs₂))
    (h1 : tickC ∉ cs) (h2 : quoteC ∉ cs)
    (h3 : List.Chain' (fun a b => ¬(a = '/' ∧ (b = '/' ∨ b = '*'))) cs) : regs₂ = [] := by
  have hfm : findMarker cs 0 = none := by
    unfold findMarker
    rw [List.drop_zero]
    exact scanMarker_none cs h1 h2 h3 0
  unfold preproc at h
  rcases fuel with _ | f
  · simp [loop] at h
  · simp only [loop] at h
    split_ifs at h with hp
    · have hio : iterOnce (fun sub sh₁ => loop f fs incdirs sub 0 false 0 [] sh₁)
          fs incdirs cs 0 false 0 [] sh = some (IterOut.cont cs.length false 0 [] sh) := by
        unfold iterOnce
        rw [hfm]
      rw [hio] at h
      rcases f with _ | f'
      · simp [loop] at h
      · simp only [loop] at h
        split_ifs at h with hp2
        · omega
        · cases h
          rfl
    · cases h
      rfl

theorem prevChar_cons (prev c : Char) (rest : List Char) (k : Nat) :
    prevChar prev (c :: rest) (k + 1) = prevChar c rest k := by
  unfold prevChar
  rcases k with _ | k'
  · simp
  · simp

theorem searchStrClose_some : ∀ (prev : Char) (l : List Char) (i p : Nat),
    searchStrClose prev l i = some p →
    ∃ k, k < l.length ∧ p = i + k + 1 ∧ l[k]? = some quoteC ∧
      prevChar prev l k ≠ some bslashC ∧
      ∀ m, m < k → ¬(l[m]? = some quoteC ∧ prevChar prev l m ≠ some bslashC)
  | prev, [], i, p => by intro h; cases h
  | prev, c :: rest, i, p => by
    intro h
    simp only [searchStrClose] at h
    split_ifs at h with hc
    · cases h
      refine ⟨0, by simp, by omega, by simp [hc.1], ?_, fun m hm => absurd hm (Nat.not_lt_zero m)⟩
      unfold prevChar
      simp only [if_pos rfl]
      intro hh
      exact hc.2 (Option.some.inj hh)
    · obtain ⟨k, hk1, hk2, hk3, hk4, hk5⟩ := searchStrClose_some c rest (i + 1) p h
      refine ⟨k + 1, by simp; omega, by omega, by simpa using hk3, ?_, ?_⟩
      · rw [prevChar_cons]; exact hk4
      · intro m hm
        rcases m with _ | m'
        · rintro ⟨ha, hb⟩
          refine hc ⟨by simpa using ha, fun hh => hb ?_⟩
          unfold prevChar
          simp [hh]
        · rintro ⟨ha, hb⟩
          exact hk5 m' (by omega) ⟨by simpa using ha, by rwa [prevChar_cons] at hb⟩

theorem searchStrClose_none : ∀ (prev : Char) (l : List Char) (i : Nat),
    searchStrClose prev l i = none →
    ∀ k, k < l.length → ¬(l[k]? = some quoteC ∧ prevChar prev l k ≠ some bslashC)
  | _, [], _ => by intro h k hk; simp at hk
  | prev, c :: rest, i => by
    intro h k hk
    simp only [searchStrClose] at h
    split_ifs at h with hc
    rcases k with _ | k'
    · rintro ⟨ha, hb⟩
      refine hc ⟨by simpa using ha, fun hh => hb ?_⟩
      unfold prevChar
      simp [hh]
    · rintro ⟨ha, hb⟩
      exact searchStrClose_none c rest (i + 1) h k' (by simpa using hk)
        ⟨by simpa using ha, by rwa [prevChar_cons] at hb⟩

theorem stall_undef : ∀ (f : Nat) (fs : FS),
    loop f fs [] csUndefA 0 false 0 [] (initShared []) = none := by
  intro f
  induction f with
  | zero => intro fs; rfl
  | succ f ih =>
    intro fs
    have hstep : loop (f + 1) fs [] csUndefA 0 false 0 [] (initShared []) =
        loop f fs [] csUndefA 0 false 0 [] (initShared []) := rfl
    rw [hstep]
    exact ih fs

theorem stall_define : ∀ (f : Nat) (fs : FS),
    loop f fs [] csDefTwice 9 false 0 [] ⟨[['A']], [], [[]], []⟩ = none := by
  intro f
  induction f with
  | zero => intro fs; rfl
  | succ f ih =>
    intro fs
    have hstep : loop (f + 1) fs [] csDefTwice 9 false 0 [] ⟨[['A']], [], [[]], []⟩ =
        loop f fs [] csDefTwice 9 false 0 [] ⟨[['A']], [], [[]], []⟩ := rfl
    rw [hstep]
    exact ih fs

/-- Claim C1: the run is claimed always to terminate, with a repeated
`define NAME` idempotent and an `undef NAME` of an absent name a no-op, both
proceeding past the directive.  In the code the scan position is only advanced
inside the membership test, so on `undef` of an undefined name (and on
`define` of an already defined name) the position never advances and the
`while` loop never terminates: for every fuel the interpreter is still
running. -/
theorem c1_nontermination :
    (∀ (fuel : Nat) (fs : FS), preproc fuel fs [] csUndefA (initShared []) = none) ∧
    (∀ (fuel : Nat) (fs : FS), preproc fuel fs [] csDefTwice (initShared []) = none) := by
  constructor
  · intro fuel fs
    exact stall_undef fuel fs
  · intro fuel fs
    rcases fuel with _ | f
    · rfl
    · have hstep : preproc (f + 1) fs [] csDefTwice (initShared []) =
          loop f fs [] csDefTwice 9 false 0 [] ⟨[['A']], [], [[]], []⟩ := rfl
      rw [hstep]
      exact stall_define f fs

/-- Claim C2: an `else` or `endif` on an empty Conditional Stack is claimed to
be silently ignored.  In the code both index `self.conditionals[-1]` on an
empty list, so the run raises `IndexError` instead of ignoring the
directive. -/
theorem c2_indexerror :
    (∀ fs : FS, preproc 1 fs [] csEndifOnly (initShared []) =
      some (LoopResult.err (initShared []))) ∧
    (∀ fs : FS, preproc 1 fs [] csElseOnly (initShared []) =
      some (LoopResult.err (initShared []))) :=
  ⟨fun _ => rfl, fun _ => rfl⟩

/-- Claim C3 counterexample: an include whose target is nowhere to be found
completes as a no-op but emits no diagnostic at all, contradicting the claim
that a diagnostic is emitted whenever the target cannot be located. -/
theorem c3_counterexample :
    preproc 3 fsEmpty [] csIncMissing (initShared []) =
      some (LoopResult.ok (initShared []) []) ∧
    (initShared []).diags = ([] : List Diag) :=
  ⟨rfl, rfl⟩

/-- Claim C3 (amended): a failing `include` leaves the Define Table and the
Conditional Stack unchanged and resumes scanning immediately after the quoted
path token; a diagnostic is emitted only when a located file cannot be opened
or read, while a target not located anywhere is skipped silently. -/
theorem c3_include_failure (recur : List Char → Shared → Option LoopResult) (fs : FS)
    (incdirs : List (List Char)) (cs : List Char) (pos : Nat) (e : Bool) (xs : Nat)
    (regs : List (Nat × Nat)) (sh : Shared) (i : Nat) (path : List Char) (pend : Nat)
    (hF : findMarker cs pos = some (i, Marker.tick))
    (hD : dispatchDirective cs i = Directive.dirInclude path pend) :
    (resolveInclude fs sh.head incdirs path = none →
      iterOnce recur fs incdirs cs pos e xs regs sh =
        some (IterOut.cont (pend + 1) e xs regs sh)) ∧
    (∀ f, resolveInclude fs sh.head incdirs path = some f →
      fs.read f = ReadResult.openFail →
      iterOnce recur fs incdirs cs pos e xs regs sh =
        some (IterOut.cont (pend + 1) e xs regs
          { sh with diags := sh.diags ++ [Diag.cantOpen f] })) ∧
    (∀ f, resolveInclude fs sh.head incdirs path = some f →
      fs.read f = ReadResult.readFail →
      iterOnce recur fs incdirs cs pos e xs regs sh =
        some (IterOut.cont (pend + 1) e xs regs
          ⟨sh.defines, sh.conditionals, fs.splitDir f :: sh.head,
            sh.diags ++ [Diag.cantOpen f]⟩)) := by
  refine ⟨?_, ?_, ?_⟩
  · intro hres
    simp only [iterOnce, includeRun, hF, hD, hres]
  · intro f hres hread
    simp only [iterOnce, includeRun, hF, hD, hres, hread]
  · intro f hres hread
    simp only [iterOnce, includeRun, hF, hD, hres, hread]

/-- Witness for the amended C3 at a concrete unresolvable include. -/
theorem c3_include_failure_witness :
    iterOnce (fun _ _ => none) fsEmpty [] csIncMissing 0 false 0 [] (initShared []) =
      some (IterOut.cont 14 false 0 [] (initShared [])) :=
  (c3_include_failure (fun _ _ => none) fsEmpty [] csIncMissing 0 false 0 [] (initShared [])
    0 ("foo".toList) 13 (by decide) (by decide)).1 (by decide)

/-- Claim C4: a successful `include` runs the nested scan on the shared
state (so macros defined there are visible afterwards, as the concrete run
shows: `foo` defines `X` and the subsequent `ifdef X` keeps its branch), while
the nested scan's own region output is discarded: the regions accumulator is
passed through unchanged, so no offset of the included file reaches the
top-level region list. -/
theorem c4_include_shares_state (recur : List Char → Shared → Option LoopResult) (fs : FS)
    (incdirs : List (List Char)) (cs : List Char) (pos : Nat) (e : Bool) (xs : Nat)
    (regs : List (Nat × Nat)) (sh : Shared) (i : Nat) (path : List Char) (pend : Nat)
    (f sub : List Char) (sh₂ : Shared) (nregs : List (Nat × Nat))
    (hF : findMarker cs pos = some (i, Marker.tick))
    (hD : dispatchDirective cs i = Directive.dirInclude path pend)
    (hres : resolveInclude fs sh.head incdirs path = some f)
    (hread : fs.read f = ReadResult.ok sub)
    (hrec : recur sub { sh with head := fs.splitDir f :: sh.head } =
      some (LoopResult.ok sh₂ nregs)) :
    iterOnce recur fs incdirs cs pos e xs regs sh =
      some (IterOut.cont (pend + 1) e xs regs { sh₂ with head := sh₂.head.tail }) ∧
    preproc 20 fsOne [] csIncMain (initShared []) =
      some (LoopResult.ok ⟨[String.toList "X"], [], [[]], []⟩ []) := by
  constructor
  · simp only [iterOnce, includeRun, hF, hD, hres, hread, hrec]
  · rfl

/-- Witness for C4 at the concrete include of `foo`. -/
theorem c4_include_shares_state_witness :
    iterOnce (fun sub sh₁ => loop 18 fsOne [] sub 0 false 0 [] sh₁) fsOne [] csIncMain
        0 false 0 [] (initShared []) =
      some (IterOut.cont 14 false 0 []
        ⟨[String.toList "X"], [], [[]], []⟩) ∧
    preproc 20 fsOne [] csIncMain (initShared []) =
      some (LoopResult.ok ⟨[String.toList "X"], [], [[]], []⟩ []) :=
  c4_include_shares_state (fun sub sh₁ => loop 18 fsOne [] sub 0 false 0 [] sh₁) fsOne []
    csIncMain 0 false 0 [] (initShared []) 0 ("foo".toList) 13 ("foo".toList)
    ("`define X\n".toList) ⟨[String.toList "X"], [], [String.toList "d", []], []⟩ []
    (by decide) (by decide) (by decide) (by decide) (by decide)

/-- Claim C5: inside an excluded outer conditional, a nested `ifdef` pushes a
frame whose `exclude` flag is false and leaves the exclusion cursor untouched;
a nested `else` whose top frame does not own the exclusion is a complete
no-op apart from the scan position; a nested `endif` in the same situation
only pops its frame and emits no region; consequently the concrete nested
input yields exactly one region spanning the whole outer excluded block. -/
theorem c5_nested_conditional (recur : List Char → Shared → Option LoopResult) (fs : FS)
    (incdirs : List (List Char)) (cs : List Char) (pos : Nat) (xs : Nat)
    (regs : List (Nat × Nat)) (sh : Shared) (i : Nat)
    (hF : findMarker cs pos = some (i, Marker.tick)) :
    (∀ name e2, dispatchDirective cs i = Directive.dirIfdef name e2 →
      iterOnce recur fs incdirs cs pos true xs regs sh =
        some (IterOut.cont e2 true xs regs
          { sh with conditionals :=
              Frame.mk (decide (name ∈ sh.defines)) false :: sh.conditionals })) ∧
    (∀ j top rest, dispatchDirective cs i = Directive.dirElse j →
      sh.conditionals = top :: rest → top.exclude = false →
      iterOnce recur fs incdirs cs pos true xs regs sh =
        some (IterOut.cont j true xs regs sh)) ∧
    (∀ j top rest, dispatchDirective cs i = Directive.dirEndif j →
      sh.conditionals = top :: rest → top.exclude = false →
      iterOnce recur fs incdirs cs pos true xs regs sh =
        some (IterOut.cont j true xs regs { sh with conditionals := rest })) ∧
    preproc 50 fsEmpty [] csNested (initShared []) =
      some (LoopResult.ok (initShared []) [(0, 43)]) := by
  refine ⟨?_, ?_, ?_, rfl⟩
  · intro name e2 hD
    simp only [iterOnce, hF, hD, Bool.not_true, Bool.false_and, Bool.false_eq_true, if_false]
  · intro j top rest hD hstk hex
    simp only [iterOnce, hF, hD, hstk, if_true, hex, Bool.false_eq_true, if_false]
  · intro j top rest hD hstk hex
    simp only [iterOnce, hF, hD, hstk, if_true, hex, Bool.false_eq_true, if_false]

/-- Witness for C5: the inner `ifdef B` of the nested input, scanned while the
outer exclusion is active. -/
theorem c5_nested_conditional_witness :
    iterOnce (fun _ _ => none) fsEmpty [] csNested 9 true 0 []
        ⟨[], [Frame.mk false true], [[]], []⟩ =
      some (IterOut.cont 17 true 0 []
        ⟨[], [Frame.mk false false, Frame.mk false true], [[]], []⟩) := by
  have h := (c5_nested_conditional (fun _ _ => none) fsEmpty [] csNested 9 0 []
    ⟨[], [Frame.mk false true], [[]], []⟩ 9 (by decide)).1 (String.toList "B") 17 (by decide)
  simpa using h

/-- Claim C6: when the nearest marker is a line comment, block comment or
string start, the whole construct is skipped in one step: the Define Table,
Conditional Stack and directory stack are untouched, the skipped span is not
added to the region accumulator, the exclusion cursor is unchanged, and the
scan resumes strictly past the marker (at most at the end of the buffer), so
a directive keyword inside the construct is never dispatched; the concrete
run shows a `define` inside a comment and inside a string leaving the Define
Table empty so that the later `ifdef A` excludes its block. -/
theorem c6_comment_string_skip (recur : List Char → Shared → Option LoopResult) (fs : FS)
    (incdirs : List (List Char)) (cs : List Char) (pos : Nat) (e : Bool) (xs : Nat)
    (regs : List (Nat × Nat)) (sh : Shared) (i : Nat) (m : Marker)
    (hF : findMarker cs pos = some (i, m))
    (hm : m = Marker.lineComment ∨ m = Marker.blockComment ∨ m = Marker.quote) :
    (∃ pos₂ ds, iterOnce recur fs incdirs cs pos e xs regs sh =
        some (IterOut.cont pos₂ e xs regs
          ⟨sh.defines, sh.conditionals, sh.head, sh.diags ++ ds⟩) ∧
      i < pos₂ ∧ pos₂ ≤ cs.length) ∧
    preproc 50 fsEmpty [] csComment (initShared []) =
      some (LoopResult.ok (initShared []) [(25, 42)]) := by
  refine ⟨?_, rfl⟩
  have hb := findMarker_bounds cs pos i m hF
  rcases hm with hm | hm | hm
  · subst hm
    rcases hS : searchNl (cs.drop (i + 2)) (i + 2) with _ | p
    · refine ⟨cs.length, [Diag.lineComment], ?_, by omega, le_refl _⟩
      simp only [iterOnce, hF, hS]
    · have hs := searchNl_bounds (cs.drop (i + 2)) (i + 2) p hS
      have hd : (cs.drop (i + 2)).length = cs.length - (i + 2) := List.length_drop _ _
      refine ⟨p, [], ?_, by omega, by omega⟩
      simp only [iterOnce, hF, hS, List.append_nil]
  · subst hm
    rcases hS : searchBC (cs.drop (i + 2)) (i + 2) with _ | p
    · refine ⟨cs.length, [Diag.blockComment], ?_, by omega, le_refl _⟩
      simp only [iterOnce, hF, hS]
    · have hs := searchBC_bounds (cs.drop (i + 2)) (i + 2) p hS
      have hd : (cs.drop (i + 2)).length = cs.length - (i + 2) := List.length_drop _ _
      refine ⟨p, [], ?_, by omega, by omega⟩
      simp only [iterOnce, hF, hS, List.append_nil]
  · subst hm
    rcases hS : searchStrClose quoteC (cs.drop (i + 1)) (i + 1) with _ | p
    · refine ⟨cs.length, [Diag.strUnterminated], ?_, by omega, le_refl _⟩
      simp only [iterOnce, hF, hS]
    · have hs := searchStrClose_bounds quoteC (cs.drop (i + 1)) (i + 1) p hS
      have hd : (cs.drop (i + 1)).length = cs.length - (i + 1) := List.length_drop _ _
      refine ⟨p, [], ?_, by omega, by omega⟩
      simp only [iterOnce, hF, hS, List.append_nil]

/-- Witness for C6 at the leading line comment of the concrete input. -/
theorem c6_comment_string_skip_witness :
    (∃ pos₂ ds, iterOnce (fun _ _ => none) fsEmpty [] csComment 0 false 0 [] (initShared []) =
        some (IterOut.cont pos₂ false 0 []
          ⟨(initShared []).defines, (initShared []).conditionals, (initShared []).head,
            (initShared []).diags ++ ds⟩) ∧
      0 < pos₂ ∧ pos₂ ≤ csComment.length) ∧
    preproc 50 fsEmpty [] csComment (initShared []) =
      some (LoopResult.ok (initShared []) [(25, 42)]) :=
  c6_comment_string_skip (fun _ _ => none) fsEmpty [] csComment 0 false 0 [] (initShared [])
    0 Marker.lineComment (by decide) (Or.inl rfl)

/-- Claim C7 counterexample: on input whose second quote is preceded by two
backslashes (an even number, which the claim says terminates the string), the
scanner does not terminate the string there: it runs to the end of the buffer,
emits an unterminated-string diagnostic, and never executes the following
`define`. -/
theorem c7_counterexample :
    preproc 3 fsEmpty [] csEvenBS (initShared []) =
      some (LoopResult.ok ⟨[], [], [[]], [Diag.strUnterminated]⟩ []) ∧
    csEvenBS[3]? = some quoteC ∧ csEvenBS[2]? = some bslashC ∧
    csEvenBS[1]? = some bslashC ∧ csEvenBS[0]? = some quoteC := by
  refine ⟨rfl, ?_, ?_, ?_, ?_⟩ <;> decide

/-- Claim C7 (amended): the string scanner stops at the first quote whose
immediately preceding character is not a backslash — the parity of the run of
backslashes before the quote plays no role — and when no such quote exists the
construct is consumed to the end of the buffer with an unterminated-string
diagnostic. -/
theorem c7_string_close :
    (∀ (prev : Char) (l : List Char) (i p : Nat), searchStrClose prev l i = some p →
      ∃ k, k < l.length ∧ p = i + k + 1 ∧ l[k]? = some quoteC ∧
        prevChar prev l k ≠ some bslashC ∧
        ∀ m, m < k → ¬(l[m]? = some quoteC ∧ prevChar prev l m ≠ some bslashC)) ∧
    (∀ (prev : Char) (l : List Char) (i : Nat), searchStrClose prev l i = none →
      ∀ k, k < l.length → ¬(l[k]? = some quoteC ∧ prevChar prev l k ≠ some bslashC)) ∧
    (∀ (recur : List Char → Shared → Option LoopResult) (fs : FS)
        (incdirs : List (List Char)) (cs : List Char) (pos : Nat) (e : Bool) (xs : Nat)
        (regs : List (Nat × Nat)) (sh : Shared) (i : Nat),
      findMarker cs pos = some (i, Marker.quote) →
      searchStrClose quoteC (cs.drop (i + 1)) (i + 1) = none →
      iterOnce recur fs incdirs cs pos e xs regs sh =
        some (IterOut.cont cs.length e xs regs
          { sh with diags := sh.diags ++ [Diag.strUnterminated] })) := by
  refine ⟨searchStrClose_some, searchStrClose_none, ?_⟩
  intro recur fs incdirs cs pos e xs regs sh i hF hS
  simp only [iterOnce, hF, hS]

/-- Witness for the amended C7 on the concrete even-backslash input. -/
theorem c7_string_close_witness :
    iterOnce (fun _ _ => none) fsEmpty [] csEvenBS 0 false 0 [] (initShared []) =
      some (IterOut.cont csEvenBS.length false 0 []
        ⟨[], [], [[]], [Diag.strUnterminated]⟩) :=
  c7_string_close.2.2 (fun _ _ => none) fsEmpty [] csEvenBS 0 false 0 [] (initShared [])
    0 (by decide) (by decide)

/-- Claim C8: a completed run returns regions that are half-open intervals
over the input's own offsets, pairwise non-overlapping and in ascending
order; and an input containing no backtick, no quote and no `//` or `/*`
digraph yields the empty region list. -/
theorem c8_regions_wf (fuel : Nat) (fs : FS) (incdirs : List (List Char)) (cs : List Char)
    (sh sh₂ : Shared) (regs : List (Nat × Nat))
    (h : preproc fuel fs incdirs cs sh = some (LoopResult.ok sh₂ regs)) :
    (regionsOrdered regs ∧ regionsBounded cs.length regs) ∧
    (tickC ∉ cs → quoteC ∉ cs →
      List.Chain' (fun a b => ¬(a = '/' ∧ (b = '/' ∨ b = '*'))) cs → regs = []) := by
  refine ⟨loop_regsWF fuel fs incdirs cs 0 false 0 [] sh sh₂ regs h (ExclInv.init cs), ?_⟩
  intro h1 h2 h3
  exact markerFree_regs fuel fs incdirs cs sh sh₂ regs h h1 h2 h3

/-- Witness for C8 on a marker-free input. -/
theorem c8_regions_wf_witness :
    (regionsOrdered [] ∧ regionsBounded ("abc".toList).length []) ∧
    ([] : List (Nat × Nat)) = [] := by
  have h := c8_regions_wf 2 fsEmpty [] ("abc".toList) (initShared []) (initShared []) [] rfl
  refine ⟨h.1, h.2 (by decide) (by decide) ?_⟩
  show List.Chain' _ ('a' :: 'b' :: 'c' :: [])
  simp only [List.chain'_cons, List.chain'_singleton, and_true]
  decide

/-- Claim C9 counterexample: an include of a file that exists but whose read
fails leaves the pushed directory on the stack after the run completes — the
Directory Context is not restored to its pre-directive state on that error
path. -/
theorem c9_counterexample :
    preproc 3 fsRF [] csIncF (initShared ("b".toList)) =
      some (LoopResult.ok
        ⟨[], [], [String.toList "d", String.toList "b"], [Diag.cantOpen ("bf".toList)]⟩ []) ∧
    [String.toList "d", String.toList "b"] ≠ [String.toList "b"] := by
  exact ⟨rfl, by decide⟩

/-- Claim C9 (amended): the included file's directory is pushed before the
nested scan and popped only on the nested scan's normal return; when the
target is not found or cannot be opened the stack is untouched, but when the
read fails after a successful open the pushed directory remains on the stack,
and when the nested scan raises, the error propagates with the directory
still pushed. -/
theorem c9_dirstack (recur : List Char → Shared → Option LoopResult) (fs : FS)
    (incdirs : List (List Char)) (cs : List Char) (pos : Nat) (e : Bool) (xs : Nat)
    (regs : List (Nat × Nat)) (sh : Shared) (i : Nat) (path : List Char) (pend : Nat)
    (hF : findMarker cs pos = some (i, Marker.tick))
    (hD : dispatchDirective cs i = Directive.dirInclude path pend) :
    (resolveInclude fs sh.head incdirs path = none →
      iterOnce recur fs incdirs cs pos e xs regs sh =
        some (IterOut.cont (pend + 1) e xs regs sh)) ∧
    (∀ f, resolveInclude fs sh.head incdirs path = some f →
      fs.read f = ReadResult.openFail →
      iterOnce recur fs incdirs cs pos e xs regs sh =
        some (IterOut.cont (pend + 1) e xs regs
          { sh with diags := sh.diags ++ [Diag.cantOpen f] })) ∧
    (∀ f, resolveInclude fs sh.head incdirs path = some f →
      fs.read f = ReadResult.readFail →
      iterOnce recur fs incdirs cs pos e xs regs sh =
        some (IterOut.cont (pend + 1) e xs regs
          ⟨sh.defines, sh.conditionals, fs.splitDir f :: sh.head,
            sh.diags ++ [Diag.cantOpen f]⟩)) ∧
    (∀ f sub sh₂ nregs, resolveInclude fs sh.head incdirs path = some f →
      fs.read f = ReadResult.ok sub →
      recur sub { sh with head := fs.splitDir f :: sh.head } =
        some (LoopResult.ok sh₂ nregs) →
      iterOnce recur fs incdirs cs pos e xs regs sh =
        some (IterOut.cont (pend + 1) e xs regs { sh₂ with head := sh₂.head.tail }) ∧
      (sh₂.head = fs.splitDir f :: sh.head →
        ({ sh₂ with head := sh₂.head.tail } : Shared).head = sh.head)) ∧
    (∀ f sub sh₂, resolveInclude fs sh.head incdirs path = some f →
      fs.read f = ReadResult.ok sub →
      recur sub { sh with head := fs.splitDir f :: sh.head } =
        some (LoopResult.err sh₂) →
      iterOnce recur fs incdirs cs pos e xs regs sh = some (IterOut.err sh₂)) := by
  refine ⟨?_, ?_, ?_, ?_, ?_⟩
  · intro hres
    simp only [iterOnce, includeRun, hF, hD, hres]
  · intro f hres hread
    simp only [iterOnce, includeRun, hF, hD, hres, hread]
  · intro f hres hread
    simp only [iterOnce, includeRun, hF, hD, hres, hread]
  · intro f sub sh₂ nregs hres hread hrec
    refine ⟨?_, ?_⟩
    · simp only [iterOnce, includeRun, hF, hD, hres, hread, hrec]
    · intro hh
      simp [hh]
  · intro f sub sh₂ hres hread hrec
    simp only [iterOnce, includeRun, hF, hD, hres, hread, hrec]

/-- Witness for the amended C9 on the read-failure file system. -/
theorem c9_dirstack_witness :
    iterOnce (fun _ _ => none) fsRF [] csIncF 0 false 0 [] (initShared ("b".toList)) =
      some (IterOut.cont 12 false 0 []
        ⟨[], [], [String.toList "d", String.toList "b"], [Diag.cantOpen ("bf".toList)]⟩) := by
  have h := (c9_dirstack (fun _ _ => none) fsRF [] csIncF 0 false 0 []
    (initShared ("b".toList)) 0 (String.toList "f") 11 (by decide) (by decide)).2.2.1
    ("bf".toList) (by decide) (by decide)
  simpa using h

/-- Claim C10: `define`, `undef`, `resetall` and `include` directives execute
identically whether or not the scan is currently inside an excluded region:
the exclusion flag, exclusion start and region accumulator are passed through
untouched, and the effect on the shared state (and, for `include`, the whole
nested run) is computed without consulting them. -/
theorem c10_exclusion_independent (recur : List Char → Shared → Option LoopResult) (fs : FS)
    (incdirs : List (List Char)) (cs : List Char) (pos : Nat) (e : Bool) (xs : Nat)
    (regs : List (Nat × Nat)) (sh : Shared) (i : Nat)
    (hF : findMarker cs pos = some (i, Marker.tick)) :
    (∀ name e2, dispatchDirective cs i = Directive.dirDefine name e2 →
      iterOnce recur fs incdirs cs pos e xs regs sh =
        some (IterOut.cont (if name ∈ sh.defines then pos else e2) e xs regs
          (if name ∈ sh.defines then sh
           else { sh with defines := sh.defines ++ [name] }))) ∧
    (∀ name e2, dispatchDirective cs i = Directive.dirUndef name e2 →
      iterOnce recur fs incdirs cs pos e xs regs sh =
        some (IterOut.cont (if name ∈ sh.defines then e2 else pos) e xs regs
          (if name ∈ sh.defines then { sh with defines := sh.defines.erase name }
           else sh))) ∧
    (∀ j, dispatchDirective cs i = Directive.dirResetall j →
      iterOnce recur fs incdirs cs pos e xs regs sh =
        some (IterOut.cont j e xs regs { sh with defines := [] })) ∧
    (∀ path pend, dispatchDirective cs i = Directive.dirInclude path pend →
      iterOnce recur fs incdirs cs pos e xs regs sh =
        match includeRun recur fs incdirs path sh with
        | IncOut.proceed sh₂ => some (IterOut.cont (pend + 1) e xs regs sh₂)
        | IncOut.errOut sh₂ => some (IterOut.err sh₂)
        | IncOut.fuelOut => none) := by
  refine ⟨?_, ?_, ?_, ?_⟩
  · intro name e2 hD
    simp only [iterOnce, hF, hD]
    split_ifs <;> rfl
  · intro name e2 hD
    simp only [iterOnce, hF, hD]
    split_ifs <;> rfl
  · intro j hD
    simp only [iterOnce, hF, hD]
  · intro path pend hD
    simp only [iterOnce, hF, hD]

/-- Witness for C10: a `define` executed while the exclusion cursor is active
still extends the Define Table and leaves the cursor and regions intact. -/
theorem c10_exclusion_independent_witness :
    iterOnce (fun _ _ => none) fsEmpty [] ("`define A\n".toList) 0 true 5 [(1, 2)]
        (initShared []) =
      some (IterOut.cont 9 true 5 [(1, 2)] ⟨[String.toList "A"], [], [[]], []⟩) := by
  have h := (c10_exclusion_independent (fun _ _ => none) fsEmpty [] ("`define A\n".toList)
    0 true 5 [(1, 2)] (initShared []) 0 (by decide)).1 (String.toList "A") 9 (by decide)
  simpa using h

end HDL
